import Mathlib

/-!
Verification of the TrojanX Trojan-protocol proxy against its specification.

The Rust sources are shallowly embedded: byte slices become `List Nat`
(each element a byte value), fallible functions return `Option` or
`Except`, machine integers are `Nat` with explicit wrap-around where it
matters, and `f64` limiter arithmetic is modelled over `ℚ`.  Code that
can reach `unreachable_unchecked` is modelled with `Option`, `none`
marking the undefined branch.
-/

set_option maxHeartbeats 1000000

namespace TrojanX



/-- `b"\r\n"` (src/proto/mod.rs, `CRLF`). -/
def crlf : List Nat := [13, 10]

/-- Model of Rust `slice.get(a..b)`: `some` of the sub-slice when the
range is in bounds, `none` otherwise. -/
def listSlice (l : List Nat) (a b : Nat) : Option (List Nat) :=
  if a ≤ b ∧ b ≤ l.length then some ((l.drop a).take (b - a)) else none

/-- Value of a single lowercase hexadecimal character, as matched by the
two `match` arms of `hex_to_u8` (src/proto/mod.rs lines 300-309). -/
def hexVal (h : Nat) : Option Nat :=
  if 48 ≤ h ∧ h ≤ 57 then some (h - 48)
  else if 97 ≤ h ∧ h ≤ 102 then some (h - 97 + 10)
  else none

/-- `hex_to_u8` (src/proto/mod.rs lines 298-312): two hex characters to
one byte, `none` on any non-`[0-9a-f]` character. -/
def hexToU8 (h0 h1 : Nat) : Option Nat := do
  let n0 ← hexVal h0
  let n1 ← hexVal h1
  pure ((n0 <<< 4) ||| n1)

/-- `u8_to_hex` (src/proto/mod.rs lines 314-333).  The source computes
`h0 = n >> 4` and `h1 = n | 0x0f` and sends any value above `0x0f` to
`std::hint::unreachable_unchecked()`; that branch is modelled by
`none`. -/
def u8ToHex (n : Nat) : Option (Nat × Nat) := do
  let h0 := n >>> 4
  let h1 := n ||| 0x0f
  let c0 ← if h0 ≤ 0x09 then some (h0 + 48)
    else if h0 ≤ 0x0f then some (h0 + 97 - 10)
    else none
  let c1 ← if h1 ≤ 0x09 then some (h1 + 48)
    else if h1 ≤ 0x0f then some (h1 + 97 - 10)
    else none
  pure (c0, c1)

/-- `Password::to_hex` (src/proto/mod.rs lines 157-165): hex-encode each
byte of the 28-byte digest in order. -/
def pwdToHex : List Nat → Option (List Nat)
  | [] => some []
  | b :: rest => do
    let (h0, h1) ← u8ToHex b
    let tl ← pwdToHex rest
    pure (h0 :: h1 :: tl)

/-- Loop body of `Password::from_hex_unchecked` (src/proto/mod.rs lines
144-150): read `k` consecutive hex pairs. -/
def pwdFromHexGo : Nat → List Nat → Option (List Nat)
  | 0, _ => some []
  | k + 1, h0 :: h1 :: rest => do
    let b ← hexToU8 h0 h1
    let tl ← pwdFromHexGo k rest
    pure (b :: tl)
  | _ + 1, [] => none
  | _ + 1, [_] => none

/-- `Password::from_hex_unchecked` applied to a slice of length ≥ 56:
28 hex pairs from the front. -/
def pwdFromHex (bytes : List Nat) : Option (List Nat) :=
  pwdFromHexGo 28 bytes

/-- `Command` (src/proto/mod.rs lines 196-201). -/
inductive Command where
  | connect
  | udpAssociate
deriving DecidableEq

/-- `Command::from_byte` (src/proto/mod.rs lines 210-216). -/
def Command.fromByte (b : Nat) : Option Command :=
  if b = 0x01 then some .connect
  else if b = 0x03 then some .udpAssociate
  else none

/-- The `repr(u8)` discriminant used by `RequestRef::as_bytes`. -/
def Command.toByte : Command → Nat
  | .connect => 0x01
  | .udpAssociate => 0x03

/-- Big-endian read of two bytes, `u16::from_be_bytes`. -/
def be16 (h l : Nat) : Nat := h * 256 + l

/-- UTF-8 continuation byte (`0x80..=0xBF`). -/
def utf8Cont (c : Nat) : Bool := 0x80 ≤ c && c ≤ 0xbf

/-- Fuel-driven UTF-8 validation loop; the fuel only bounds recursion
and is always instantiated with the list length (each step consumes at
least one byte). -/
def isUtf8Go : Nat → List Nat → Bool
  | _, [] => true
  | 0, _ :: _ => false
  | fuel + 1, b :: rest =>
    if b ≤ 0x7f then isUtf8Go fuel rest
    else if b < 0xc2 then false
    else if b ≤ 0xdf then
      match rest with
      | c :: r => utf8Cont c && isUtf8Go fuel r
      | [] => false
    else if b ≤ 0xef then
      match rest with
      | c :: d :: r =>
        (if b = 0xe0 then decide (0xa0 ≤ c) && decide (c ≤ 0xbf)
          else if b = 0xed then decide (0x80 ≤ c) && decide (c ≤ 0x9f)
          else utf8Cont c) && utf8Cont d && isUtf8Go fuel r
      | _ => false
    else if b ≤ 0xf4 then
      match rest with
      | c :: d :: e :: r =>
        (if b = 0xf0 then decide (0x90 ≤ c) && decide (c ≤ 0xbf)
          else if b = 0xf4 then decide (0x80 ≤ c) && decide (c ≤ 0x8f)
          else utf8Cont c) && utf8Cont d && utf8Cont e && isUtf8Go fuel r
      | _ => false
    else false

/-- Model of `std::str::from_utf8(..).is_ok()`. -/
def isUtf8 (l : List Nat) : Bool := isUtf8Go l.length l

/-- `AssembleError` (src/proto/mod.rs lines 95-100). -/
inductive AssembleError where
  | protocol
  | notReady
deriving DecidableEq

/-- `Address` payload (src/proto/addr.rs, `AddressInner`): IPv4 socket
address, IPv6 socket address, or `(domain-name, port)`.  IPv6 octets
and domain bytes are kept as byte lists. -/
inductive Addr where
  | v4 (o0 o1 o2 o3 : Nat) (port : Nat)
  | v6 (octets : List Nat) (port : Nat)
  | name (bytes : List Nat) (port : Nat)
deriving DecidableEq

/-- `AddressInner::size` (src/proto/addr.rs lines 224-231). -/
def addrSize : Addr → Nat
  | .v4 _ _ _ _ _ => 7
  | .v6 _ _ => 19
  | .name n _ => n.length + 4

/-- `AddressInner::from_assemble_bytes` (src/proto/addr.rs lines
164-214). -/
def addrFromAssembleBytes (bytes : List Nat) : Except AssembleError Addr :=
  match bytes with
  | [] => .error .notReady
  | kind :: _ =>
    if kind = 0x01 then
      match listSlice bytes 1 7 with
      | none => .error .notReady
      | some s =>
        .ok (.v4 (s.getD 0 0) (s.getD 1 0) (s.getD 2 0) (s.getD 3 0)
          (be16 (s.getD 4 0) (s.getD 5 0)))
    else if kind = 0x03 then
      match bytes[1]? with
      | none => .error .notReady
      | some nameLen =>
        match listSlice bytes 2 (nameLen + 2 + 2) with
        | none => .error .notReady
        | some s =>
          let nm := s.take nameLen
          if isUtf8 nm then
            .ok (.name nm (be16 (s.getD nameLen 0) (s.getD (nameLen + 1) 0)))
          else .error .protocol
    else if kind = 0x04 then
      match listSlice bytes 1 19 with
      | none => .error .notReady
      | some s => .ok (.v6 (s.take 16) (be16 (s.getD 16 0) (s.getD 17 0)))
    else .error .protocol

/-- `AddressInner::extend_bytes` (src/proto/addr.rs lines 233-254); the
emitted bytes (`n.len() as u8` is `% 256`, `to_be_bytes` of the port is
its two big-endian bytes). -/
def addrExtendBytes : Addr → List Nat
  | .v4 a b c d p => [0x01, a, b, c, d] ++ [p / 256, p % 256]
  | .v6 os p => 0x04 :: os ++ [p / 256, p % 256]
  | .name n p => 0x03 :: n.length % 256 :: n ++ [p / 256, p % 256]

/-- `RequestRef` (src/proto/mod.rs lines 236-241). -/
structure Req where
  pwd : List Nat
  cmd : Command
  addr : Addr
  payload : List Nat
deriving DecidableEq

/-- `RequestRef::from_bytes` (src/proto/mod.rs lines 253-282). -/
def reqFromBytes (bytes : List Nat) : Option Req :=
  match listSlice bytes 0 59 with
  | none => none
  | some slice =>
    match pwdFromHex slice with
    | none => none
    | some pwd =>
      if (slice.drop 56).take 2 = crlf then
        match Command.fromByte (slice.getD 58 0) with
        | none => none
        | some cmd =>
          match addrFromAssembleBytes (bytes.drop 59) with
          | .error _ => none
          | .ok addr =>
            let offset := 59 + addrSize addr + 2
            match listSlice bytes (offset - 2) offset with
            | none => none
            | some s =>
              if s = crlf then some ⟨pwd, cmd, addr, bytes.drop offset⟩
              else none
      else none

/-- `RequestRef::as_bytes` (src/proto/mod.rs lines 284-296); `Option`
because hex-encoding the password is undefined (`u8_to_hex`) on bytes
above `0x0f`. -/
def reqAsBytes (r : Req) : Option (List Nat) := do
  let hex ← pwdToHex r.pwd
  pure (hex ++ crlf ++ [r.cmd.toByte] ++ addrExtendBytes r.addr ++ crlf ++ r.payload)

/-- A request built from the all-zero 28-byte password, `Connect`,
`0.0.0.0:0` and an empty payload. -/
def zeroPwdReq : Req :=
  ⟨List.replicate 28 0, .connect, .v4 0 0 0 0 0, []⟩

/-- Validity of an address as the specification describes it: genuine
octets and port for the IP forms, and for a domain 1..=255 bytes of
valid UTF-8 with a port. -/
def AddrValid : Addr → Prop
  | .v4 o0 o1 o2 o3 p => o0 < 256 ∧ o1 < 256 ∧ o2 < 256 ∧ o3 < 256 ∧ p < 65536
  | .v6 os p => os.length = 16 ∧ (∀ b ∈ os, b < 256) ∧ p < 65536
  | .name n p =>
      1 ≤ n.length ∧ n.length ≤ 255 ∧ isUtf8 n = true ∧ (∀ b ∈ n, b < 256) ∧ p < 65536

instance (a : Addr) : Decidable (AddrValid a) := by
  cases a <;> (unfold AddrValid; infer_instance)

/-- Encoded sizes as the specification words them: 7 for IPv4, 19 for
IPv6, `|name| + 4` for a domain. -/
def specEncodedSize : Addr → Nat
  | .v4 _ _ _ _ _ => 7
  | .v6 _ _ => 19
  | .name n _ => n.length + 4

/-- The characters `[0-9a-f]`: lowercase hexadecimal, as the
specification words it. -/
def isLowerHexDigit (c : Nat) : Bool :=
  (48 ≤ c && c ≤ 57) || (97 ≤ c && c ≤ 102)

/-- Well-formedness of a Trojan request byte string, following the
specification clause by clause: at least 59 bytes; the first 56 all
lowercase hex; bytes 56..58 equal to CRLF; a known command byte at 58;
a complete well-formed address at offset 59; CRLF right after the
address. -/
def reqWellFormed (b : List Nat) : Prop :=
  59 ≤ b.length ∧
  (b.take 56).all isLowerHexDigit = true ∧
  (b.drop 56).take 2 = crlf ∧
  (b.getD 58 0 = 0x01 ∨ b.getD 58 0 = 0x03) ∧
  ∃ a, addrFromAssembleBytes (b.drop 59) = .ok a ∧
    listSlice b (59 + addrSize a) (59 + addrSize a + 2) = some crlf

/-- A concrete well-formed request byte string: fingerprint `"a" × 56`,
CRLF, `Connect`, IPv4 `127.0.0.1:80`, CRLF, payload `[5, 6]`. -/
def wReqBytes : List Nat :=
  List.replicate 56 97 ++ [13, 10, 1, 1, 127, 0, 0, 1, 0, 80, 13, 10, 5, 6]

/-- `UdpPacketInner` (src/proto/udp_packet.rs lines 135-138): the parsed
address together with the payload the packet points at. -/
structure UdpPacketInner where
  addr : Addr
  payload : List Nat
deriving DecidableEq

/-- `UdpPacketInner::size` (src/proto/udp_packet.rs lines 178-180). -/
def UdpPacketInner.size (p : UdpPacketInner) : Nat :=
  addrSize p.addr + 2 + 2 + p.payload.length

/-- `UdpPacketInner::from_bytes` (src/proto/udp_packet.rs lines
141-164). -/
def udpFromBytes (bytes : List Nat) : Except AssembleError UdpPacketInner :=
  match addrFromAssembleBytes bytes with
  | .error e => .error e
  | .ok addr =>
    let addrLen := addrSize addr
    match listSlice bytes addrLen (addrLen + 2) with
    | none => .error .notReady
    | some ls =>
      let len := be16 (ls.getD 0 0) (ls.getD 1 0)
      match listSlice bytes (addrLen + 2) (addrLen + 2 + 2 + len) with
      | none => .error .notReady
      | some s =>
        if s.take 2 = crlf then .ok ⟨addr, s.drop 2⟩
        else .error .protocol

/-- `UdpPacketBuf` (src/proto/udp_packet.rs lines 66-70): the owned
stream buffer and the currently held parsed packet. -/
structure UdpPacketBuf where
  buf : List Nat
  packet : Option UdpPacketInner

/-- `UdpPacketBuf::init` (src/proto/udp_packet.rs lines 75-78). -/
def UdpPacketBuf.init (bytes : List Nat) : UdpPacketBuf := ⟨bytes, none⟩

/-- `UdpPacketBuf::write` (src/proto/udp_packet.rs lines 86-90). -/
def UdpPacketBuf.write (s : UdpPacketBuf) (bytes : List Nat) : UdpPacketBuf :=
  { s with buf := s.buf ++ bytes }

/-- `UdpPacketBuf::process_new_packet` (src/proto/udp_packet.rs lines
92-111).  The `ptr::copy` compaction keeps `remain = buf.len() - pos`
bytes taken from position `pos`; the returned `Bool` is `false` exactly
on a `Protocol` error. -/
def UdpPacketBuf.processNewPacket (s : UdpPacketBuf) : UdpPacketBuf × Bool :=
  let s1 : UdpPacketBuf :=
    match s.packet with
    | some p =>
      let pos := p.size
      let remain := s.buf.length - pos
      { buf := (s.buf.drop pos).take remain, packet := none }
    | none => s
  match udpFromBytes s1.buf with
  | .ok p => ({ s1 with packet := some p }, true)
  | .error .notReady => (s1, true)
  | .error .protocol => (s1, false)

/-- States of the reassembler reachable from `init` by `write` and
`process_new_packet`. -/
inductive UdpBufReachable : UdpPacketBuf → Prop where
  | init (bytes : List Nat) : UdpBufReachable (UdpPacketBuf.init bytes)
  | write (s : UdpPacketBuf) (bytes : List Nat) :
      UdpBufReachable s → UdpBufReachable (s.write bytes)
  | process (s : UdpPacketBuf) :
      UdpBufReachable s → UdpBufReachable s.processNewPacket.1

/-- A concrete framed UDP packet: IPv4 `127.0.0.1:53`, length 2, CRLF,
payload `[8, 9]`. -/
def wPktBytes : List Nat := [1, 127, 0, 0, 1, 0, 53, 0, 2, 13, 10, 8, 9]

/-- `Bucket::INTERVAL = 0.2` seconds (src/utils/limiter.rs line 57). -/
def INTERVAL : ℚ := 1 / 5

/-- `Limiter` with its inner `Bucket` (src/utils/limiter.rs lines
13-16, 50-54) flattened: `volumn` and `speed_limit` are the bucket
fields, `is_unlimited` the atomic flag.  `f64` is modelled over `ℚ`; an
infinite speed-limit argument is `none`.  The bucket's `speed_limit`
field is never read while `is_unlimited` is set, so a construction with
an infinite limit stores `0` there. -/
structure Limiter where
  volumn : ℚ
  speedLimit : ℚ
  isUnlimited : Bool
deriving DecidableEq

/-- `Limiter::new` (src/utils/limiter.rs lines 19-29). -/
def Limiter.new (speed : Option ℚ) : Limiter :=
  match speed with
  | some r => ⟨0, r, false⟩
  | none => ⟨0, 0, true⟩

/-- `Limiter::set_speed_limit` (src/utils/limiter.rs lines 31-38). -/
def Limiter.setSpeedLimit (l : Limiter) (speed : Option ℚ) : Limiter :=
  match speed with
  | none => { l with isUnlimited := true }
  | some r => { l with speedLimit := r, isUnlimited := false }

/-- `Bucket::refill` (src/utils/limiter.rs lines 69-74); `elapsed` is
the nonnegative time since `updated_at`. -/
def Limiter.refill (l : Limiter) (elapsed : ℚ) : Limiter :=
  { l with volumn := min (l.speedLimit * INTERVAL) (l.volumn + l.speedLimit * elapsed) }

/-- `Bucket::consume` (src/utils/limiter.rs lines 59-67). -/
def Limiter.bucketConsume (l : Limiter) (bytes : Nat) : Limiter × ℚ :=
  let v := l.volumn - (bytes : ℚ)
  ({ l with volumn := v },
    if 0 < v then 0 else INTERVAL - v / l.speedLimit)

/-- `Limiter::consume` (src/utils/limiter.rs lines 40-48). -/
def Limiter.consume (l : Limiter) (elapsed : ℚ) (bytes : Nat) : Limiter × ℚ :=
  if l.isUnlimited then (l, 0)
  else (l.refill elapsed).bucketConsume bytes

/-- Limiter states reachable from construction by `consume` (with
nonnegative elapsed time) and `set_speed_limit`. -/
inductive LimiterReachable : Limiter → Prop where
  | new (speed : Option ℚ) : LimiterReachable (Limiter.new speed)
  | consume (l : Limiter) (elapsed : ℚ) (bytes : Nat) (he : 0 ≤ elapsed) :
      LimiterReachable l → LimiterReachable (l.consume elapsed bytes).1
  | set (l : Limiter) (speed : Option ℚ) :
      LimiterReachable l → LimiterReachable (l.setSpeedLimit speed)

/-- The state reached by `new(100)`, one `consume(0)` after 1 s (the
bucket refills to its cap `100 · 0.2 = 20`), then
`set_speed_limit(10)`. -/
def c5State : Limiter :=
  (((Limiter.new (some 100)).consume 1 0).1).setSpeedLimit (some 10)

section AssocMap

variable {κ ν : Type} [DecidableEq κ]

/-- `HashMap::get` on an association list with unique keys. -/
def alGet : List (κ × ν) → κ → Option ν
  | [], _ => none
  | (k2, v) :: rest, k => if k2 = k then some v else alGet rest k

/-- `HashMap::insert`: replace the binding when present, else append. -/
def alInsert : List (κ × ν) → κ → ν → List (κ × ν)
  | [], k, v => [(k, v)]
  | (k2, v2) :: rest, k, v =>
    if k2 = k then (k, v) :: rest else (k2, v2) :: alInsert rest k v

/-- `HashMap::remove`. -/
def alRemove : List (κ × ν) → κ → List (κ × ν)
  | [], _ => []
  | (k2, v2) :: rest, k => if k2 = k then rest else (k2, v2) :: alRemove rest k

end AssocMap

/-- A password fingerprint: the raw 28 digest bytes. -/
abbrev Pwd := List Nat

/-- `UserContext` (src/sspanel/server/context.rs lines 24-30): traffic
counters, limiter, and the mutex-guarded `(ips, cap)` pair flattened
into two fields.  IP addresses are modelled as `Nat`. -/
structure UserContext where
  id : Nat
  rx : Nat
  tx : Nat
  limiter : Limiter
  ips : Finset Nat
  ipCap : Option Nat
deriving DecidableEq

/-- `UserRaw` (src/sspanel/client/context.rs lines 25-35). -/
structure UserRaw where
  id : Nat
  pwd : Pwd
  speedLimitRaw : ℚ
  ipLimitRaw : Nat
  ipOnline : Nat
deriving DecidableEq

/-- `UserRaw::ip_limit` (src/sspanel/client/context.rs lines 56-65). -/
def UserRaw.ipLimit (u : UserRaw) : Option Nat :=
  if u.ipLimitRaw = 0 then none
  else if u.ipLimitRaw < u.ipOnline then some 0
  else some (u.ipLimitRaw - u.ipOnline)

/-- `UserRaw::speed_limit` (src/sspanel/client/context.rs lines 67-73):
`none` is `f64::INFINITY` for a raw value of 0. -/
def UserRaw.speedLimit (u : UserRaw) : Option ℚ :=
  if u.speedLimitRaw = 0 then none
  else some (u.speedLimitRaw * 1024 * 1024)

/-- `UserRaw::as_server_user` (src/sspanel/server/context.rs lines
46-57). -/
def UserRaw.asServerUser (u : UserRaw) : Pwd × UserContext :=
  (u.pwd, ⟨u.id, 0, 0, Limiter.new u.speedLimit, ∅, u.ipLimit⟩)

/-- `UserRaw::update_ctx` (src/sspanel/server/context.rs lines
59-62). -/
def UserRaw.updateCtx (u : UserRaw) (c : UserContext) : UserContext :=
  { c with limiter := c.limiter.setSpeedLimit u.speedLimit, ipCap := u.ipLimit }

/-- The store-reconciliation portion of `Client::fetch_users`
(src/sspanel/client/mod.rs lines 74-114): first drop users absent from
the fetched set, then, iterating the fetched set, insert new users and
reload changed ones via `users.get(&user.pwd)` — the lookup uses the
NEW record's fingerprint. -/
def fetchUsersReconcile (running fetched : List (Nat × UserRaw))
    (users : List (Pwd × UserContext)) : List (Pwd × UserContext) :=
  let users1 := running.foldl
    (fun us idu =>
      match alGet fetched idu.1 with
      | none => alRemove us idu.2.pwd
      | some _ => us)
    users
  fetched.foldl
    (fun us idu =>
      match alGet running idu.1 with
      | some u =>
        if idu.2 ≠ u then
          match alGet us idu.2.pwd with
          | some ctx => alInsert us idu.2.pwd (idu.2.updateCtx ctx)
          | none => alInsert us idu.2.asServerUser.1 idu.2.asServerUser.2
        else us
      | none => alInsert us idu.2.asServerUser.1 idu.2.asServerUser.2)
    users1

/-- Fingerprints for the reconcile scenario of C2. -/
def pA : Pwd := [10]

def pB : Pwd := [11]

def pC : Pwd := [12]

/-- User 1's old record with fingerprint `pA`. -/
def uA : UserRaw := ⟨1, pA, 1, 0, 0⟩

/-- User 1's new record, renamed to fingerprint `pB`. -/
def uB : UserRaw := ⟨1, pB, 1, 0, 0⟩

/-- User 2, new, with fingerprint `pC`. -/
def uC : UserRaw := ⟨2, pC, 1, 0, 0⟩

/-- User 1's running context under `pA`: counters `rx = 5`, `tx = 7`,
one live IP. -/
def ctxA : UserContext := ⟨1, 5, 7, ⟨3, 1048576, false⟩, {9}, none⟩

/-- `UserVerifyError` (src/sspanel/server/context.rs lines 65-68). -/
inductive UserVerifyError where
  | password
  | ipLimit
deriving DecidableEq

/-- `ServerContext::verify` (src/sspanel/server/context.rs lines
90-115): look the fingerprint up, insert the source IP into the user's
set, and if a cap is set and the set now exceeds it, remove the source
IP and reject with `IpLimit`.  Returns the store after the call
together with the result. -/
def verify (users : List (Pwd × UserContext)) (src : Nat) (pwd : Pwd) :
    List (Pwd × UserContext) × Except UserVerifyError Unit :=
  match alGet users pwd with
  | none => (users, .error .password)
  | some u =>
    let ips1 := insert src u.ips
    match u.ipCap with
    | some n =>
      if n < ips1.card then
        (alInsert users pwd { u with ips := ips1.erase src }, .error .ipLimit)
      else (alInsert users pwd { u with ips := ips1 }, .ok ())
    | none => (alInsert users pwd { u with ips := ips1 }, .ok ())

/-- `UpdateData` (src/sspanel/client/context.rs lines 82-91). -/
structure UpdateData where
  userId : Nat
  rx : Nat
  tx : Nat
  pwd : Pwd
deriving DecidableEq

/-- `u64` wrap-around bound. -/
def U64LIM : Nat := 2 ^ 64

/-- `AtomicU64::fetch_sub`: wrapping subtraction mod `2^64` (the stored
values are below `U64LIM`). -/
def sub64 (v d : Nat) : Nat := (v + (U64LIM - d % U64LIM)) % U64LIM

/-- `ServerContext::collect_update` (src/sspanel/server/context.rs
lines 135-155): snapshot `(id, tx, rx, pwd)` of every user with a
nonzero counter. -/
def collectUpdate (users : List (Pwd × UserContext)) : List UpdateData :=
  users.filterMap (fun e =>
    if e.2.tx > 0 ∨ e.2.rx > 0 then some ⟨e.2.id, e.2.rx, e.2.tx, e.1⟩ else none)

/-- One iteration of the `assume_update` loop (src/sspanel/server/
context.rs lines 157-166): subtract the reported deltas from the user
still stored under the reported fingerprint. -/
def assumeStep (us : List (Pwd × UserContext)) (d : UpdateData) :
    List (Pwd × UserContext) :=
  match alGet us d.pwd with
  | some u => alInsert us d.pwd { u with tx := sub64 u.tx d.tx, rx := sub64 u.rx d.rx }
  | none => us

/-- `ServerContext::assume_update` (src/sspanel/server/context.rs lines
157-166). -/
def assumeUpdate : List (Pwd × UserContext) → List UpdateData →
    List (Pwd × UserContext)
  | us, [] => us
  | us, d :: ds => assumeUpdate (assumeStep us d) ds

/-- The per-datagram cap `PAYLOAD_LEN = 8192` (src/server/session.rs
line 110, src/session/mod.rs line 84). -/
def PAYLOAD_LEN : Nat := 8192

/-- The `UdpSend` drain of src/server/session.rs lines 168-177 applied
to the payloads the reassembler yields, in order: a packet is sent and
its byte count recorded as tx when `payload.len() <= PAYLOAD_LEN`,
otherwise it is dropped.  Returns the sent payloads and the total
recorded tx. -/
def serverUdpDrain : List (List Nat) → List (List Nat) × Nat
  | [] => ([], 0)
  | p :: rest =>
    if p.length ≤ PAYLOAD_LEN then
      (p :: (serverUdpDrain rest).1, p.length + (serverUdpDrain rest).2)
    else serverUdpDrain rest

/-- The drain loop of src/session/mod.rs lines 175-183: a packet is
sent and counted only when `payload.len() < PAYLOAD_LEN` — the bound is
strict. -/
def sessionUdpDrain : List (List Nat) → List (List Nat) × Nat
  | [] => ([], 0)
  | p :: rest =>
    if p.length < PAYLOAD_LEN then
      (p :: (sessionUdpDrain rest).1, p.length + (sessionUdpDrain rest).2)
    else sessionUdpDrain rest

theorem be16_split (p : Nat) : be16 (p / 256) (p % 256) = p := by
  unfold be16; omega

/-- C9: the helper `u8_to_hex` is claimed never to reach the branches
marked `unreachable_unchecked`, the nibbles `n >> 4` and `n | 0x0f`
both lying in `0x00..=0x0f`.  The code fails this for every byte
`n ≥ 0x10`: at `n = 0x10` the second computed value is
`0x10 ||| 0x0f = 0x1f > 0x0f`, so the undefined branch is reached
(modelled by `none`). -/
theorem u8ToHex_reaches_unreachable_at_16 :
    u8ToHex 0x10 = none ∧ 0x0f < 0x10 ||| 0x0f := by decide

/-- C1 (counter-evidence): the encode/decode round trip fails on the
request with the all-zero password.  `u8_to_hex` encodes every password
byte `n < 0x10` with low hex digit `n | 0x0f = 0x0f`, so `as_bytes`
emits `"0f"` for the byte `0x00` and `from_bytes` reads the password
back as 28 bytes of `0x0f`. -/
theorem reqRoundTrip_fails_on_zero_pwd :
    (reqAsBytes zeroPwdReq).bind reqFromBytes =
      some ⟨List.replicate 28 15, .connect, .v4 0 0 0 0 0, []⟩ ∧
    (List.replicate 28 15 : List Nat) ≠ List.replicate 28 0 := by decide

/-- C6: decoding the encoding of any valid address — IPv4, IPv6, or a
domain of 1..=255 bytes of valid UTF-8 with a port — yields the same
address, and the encoded byte length is 7 for IPv4, 19 for IPv6 and
`|name| + 4` for a domain. -/
theorem addrRoundTrip (a : Addr) (h : AddrValid a) :
    addrFromAssembleBytes (addrExtendBytes a) = .ok a ∧
    (addrExtendBytes a).length = specEncodedSize a := by
  cases a with
  | v4 o0 o1 o2 o3 p =>
    refine ⟨?_, rfl⟩
    simp [addrFromAssembleBytes, addrExtendBytes, listSlice, be16]
    omega
  | v6 os p =>
    obtain ⟨h16, -, hp⟩ := h
    have hlen : (os ++ [p / 256, p % 256]).length = 18 := by simp [h16]
    have hslice : listSlice (0x04 :: (os ++ [p / 256, p % 256])) 1 19 =
        some (os ++ [p / 256, p % 256]) := by
      simp [listSlice, hlen, List.take_of_length_le]
    have t2 : (os ++ [p / 256, p % 256]).take 16 = os := by
      rw [show (16 : Nat) = os.length from h16.symm]
      exact List.take_left _ _
    have t3 : (os ++ [p / 256, p % 256])[16]? = some (p / 256) := by
      rw [List.getElem?_append_right (by omega), h16]
      norm_num
    have t4 : (os ++ [p / 256, p % 256])[17]? = some (p % 256) := by
      rw [List.getElem?_append_right (by omega), h16]
      norm_num
    refine ⟨?_, by simp [addrExtendBytes, specEncodedSize, h16]⟩
    have hA : addrExtendBytes (.v6 os p) = 0x04 :: (os ++ [p / 256, p % 256]) := rfl
    rw [hA]
    simp only [addrFromAssembleBytes, hslice]
    norm_num [t2, t3, t4, be16_split]
  | name n p =>
    obtain ⟨h1, h255, hutf, -, hp⟩ := h
    have hmod : n.length % 256 = n.length := Nat.mod_eq_of_lt (by omega)
    have hlen : (n ++ [p / 256, p % 256]).length = n.length + 2 := by simp
    have hslice : listSlice (0x03 :: n.length :: (n ++ [p / 256, p % 256])) 2
        (n.length + 2 + 2) = some (n ++ [p / 256, p % 256]) := by
      simp [listSlice, List.take_of_length_le]
    have t2 : (n ++ [p / 256, p % 256]).take n.length = n := List.take_left _ _
    have t3 : (n ++ [p / 256, p % 256])[n.length]? = some (p / 256) := by
      rw [List.getElem?_append_right (by omega)]
      norm_num
    have t4 : (n ++ [p / 256, p % 256])[n.length + 1]? = some (p % 256) := by
      rw [List.getElem?_append_right (by omega)]
      norm_num
    refine ⟨?_, by simp [addrExtendBytes, specEncodedSize]⟩
    have hA : addrExtendBytes (.name n p) =
        0x03 :: n.length % 256 :: (n ++ [p / 256, p % 256]) := rfl
    rw [hA, hmod]
    simp only [addrFromAssembleBytes]
    norm_num [hslice, t2, t3, t4, be16_split, hutf]

/-- C6 witness: the round trip evaluated on the concrete domain address
`("a", 80)`. -/
theorem addrRoundTrip_witness :
    AddrValid (Addr.name [97] 80) ∧
    (addrFromAssembleBytes (addrExtendBytes (Addr.name [97] 80)) =
        .ok (Addr.name [97] 80) ∧
      (addrExtendBytes (Addr.name [97] 80)).length =
        specEncodedSize (Addr.name [97] 80)) :=
  ⟨by decide, addrRoundTrip _ (by decide)⟩

theorem hexVal_isSome_iff (c : Nat) :
    (hexVal c).isSome ↔ isLowerHexDigit c = true := by
  have : isLowerHexDigit c = true ↔ ((48 ≤ c ∧ c ≤ 57) ∨ (97 ≤ c ∧ c ≤ 102)) := by
    simp [isLowerHexDigit]
  rw [this]
  unfold hexVal
  split
  · rename_i h; simp [h]
  · rename_i h
    split
    · rename_i h2; simp [h2]
    · rename_i h2; simp [h, h2]

theorem hexToU8_isSome_iff (h0 h1 : Nat) :
    (hexToU8 h0 h1).isSome ↔
      (isLowerHexDigit h0 = true ∧ isLowerHexDigit h1 = true) := by
  rw [← hexVal_isSome_iff, ← hexVal_isSome_iff]
  unfold hexToU8
  rcases hexVal h0 with _ | v0 <;> rcases hexVal h1 with _ | v1 <;> simp

theorem pwdFromHexGo_isSome_iff (k : Nat) (l : List Nat) :
    (pwdFromHexGo k l).isSome ↔
      (2 * k ≤ l.length ∧ (l.take (2 * k)).all isLowerHexDigit = true) := by
  induction k generalizing l with
  | zero => simp [pwdFromHexGo]
  | succ k ih =>
    have e2 : 2 * (k + 1) = 2 * k + 1 + 1 := by ring
    rw [e2]
    match l with
    | [] =>
      simp only [pwdFromHexGo, List.length_nil]
      simp
    | [h0] =>
      simp only [pwdFromHexGo, List.length_cons, List.length_nil]
      simp
    | h0 :: h1 :: rest =>
      have hiff := ih rest
      rcases e : hexToU8 h0 h1 with _ | v
      · have hno : ¬(isLowerHexDigit h0 = true ∧ isLowerHexDigit h1 = true) := by
          rw [← hexToU8_isSome_iff, e]; simp
        simp only [pwdFromHexGo, e, Option.bind_eq_bind, Option.none_bind,
          Option.isSome_none, Bool.false_eq_true, false_iff]
        rintro ⟨-, hall⟩
        rw [List.take_succ_cons, List.take_succ_cons, List.all_cons, List.all_cons,
          Bool.and_eq_true, Bool.and_eq_true] at hall
        exact hno ⟨hall.1, hall.2.1⟩
      · have hyes : isLowerHexDigit h0 = true ∧ isLowerHexDigit h1 = true := by
          rw [← hexToU8_isSome_iff, e]; simp
        rcases eg : pwdFromHexGo k rest with _ | tl
        · have hgo :
              ¬(2 * k ≤ rest.length ∧ (rest.take (2 * k)).all isLowerHexDigit = true) := by
            rw [← hiff, eg]; simp
          simp only [pwdFromHexGo, e, eg, Option.bind_eq_bind, Option.some_bind,
            Option.none_bind, Option.isSome_none, Bool.false_eq_true, false_iff]
          rintro ⟨hlen, hall⟩
          rw [List.take_succ_cons, List.take_succ_cons, List.all_cons, List.all_cons,
            Bool.and_eq_true, Bool.and_eq_true] at hall
          refine hgo ⟨?_, hall.2.2⟩
          simp only [List.length_cons] at hlen
          omega
        · have hgo :
              2 * k ≤ rest.length ∧ (rest.take (2 * k)).all isLowerHexDigit = true := by
            rw [← hiff, eg]; simp
          simp only [pwdFromHexGo, e, eg, Option.bind_eq_bind, Option.some_bind,
            Option.pure_def, Option.isSome_some, true_iff]
          refine ⟨by simp only [List.length_cons]; omega, ?_⟩
          rw [List.take_succ_cons, List.take_succ_cons, List.all_cons, List.all_cons]
          simp [hyes.1, hyes.2, hgo.2]

theorem pwdFromHex_isSome_iff (b : List Nat) (hb : 59 ≤ b.length) :
    (pwdFromHex (b.take 59)).isSome ↔ (b.take 56).all isLowerHexDigit = true := by
  unfold pwdFromHex
  rw [pwdFromHexGo_isSome_iff]
  have h1 : (b.take 59).length = 59 := by rw [List.length_take]; omega
  have h2 : (b.take 59).take (2 * 28) = b.take 56 := by
    rw [List.take_take]; norm_num
  rw [h1, h2]
  norm_num

theorem commandFromByte_isSome_iff (c : Nat) :
    (Command.fromByte c).isSome ↔ (c = 0x01 ∨ c = 0x03) := by
  unfold Command.fromByte
  split
  · rename_i h; simp [h]
  · rename_i h
    split
    · rename_i h2; simp [h2]
    · rename_i h2; simp [h, h2]

/-- C7: `RequestRef::from_bytes` fails exactly on the inputs that are
malformed in one of the specified ways (shorter than 59 bytes; a
non-`[0-9a-f]` character among the first 56; missing CRLF at 56; an
unknown command byte; a malformed or incomplete address at 59; missing
CRLF after the address), and on every well-formed input it succeeds
with the payload equal to the remaining bytes after that CRLF. -/
theorem reqFromBytes_isSome_iff (b : List Nat) :
    ((reqFromBytes b).isSome ↔ reqWellFormed b) ∧
    ∀ r, reqFromBytes b = some r →
      r.payload = b.drop (59 + addrSize r.addr + 2) := by
  by_cases hb : 59 ≤ b.length
  · have hsl : listSlice b 0 59 = some (b.take 59) := by
      simp [listSlice, hb]
    have hgd : b.getD 58 0 = b[58]?.getD 0 := List.getD_eq_getElem?_getD b 58 0
    have hcrlf : ((b.take 59).drop 56).take 2 = (b.drop 56).take 2 := by
      rw [List.drop_take, List.take_take]
      norm_num
    rcases hpw : pwdFromHex (b.take 59) with _ | pwd
    · have hhex : ¬(b.take 56).all isLowerHexDigit = true := by
        rw [← pwdFromHex_isSome_iff b hb, hpw]; simp
      have hnone : reqFromBytes b = none := by
        simp [reqFromBytes, hsl, hpw]
      refine ⟨?_, fun r hr => by rw [hnone] at hr; cases hr⟩
      rw [hnone]
      simp only [Option.isSome_none, Bool.false_eq_true, false_iff]
      rintro ⟨-, hall, -⟩
      exact hhex hall
    · have hhex : (b.take 56).all isLowerHexDigit = true :=
        (pwdFromHex_isSome_iff b hb).mp (by rw [hpw]; rfl)
      by_cases h2 : (b.drop 56).take 2 = crlf
      · rcases hcb : Command.fromByte (b[58]?.getD 0) with _ | cmd
        · have hnc : ¬(b[58]?.getD 0 = 0x01 ∨ b[58]?.getD 0 = 0x03) := by
            rw [← commandFromByte_isSome_iff, hcb]; simp
          have hnone : reqFromBytes b = none := by
            simp [reqFromBytes, hsl, hpw, hcrlf, h2, hcb]
          refine ⟨?_, fun r hr => by rw [hnone] at hr; cases hr⟩
          rw [hnone]
          simp only [Option.isSome_none, Bool.false_eq_true, false_iff]
          rintro ⟨-, -, -, hcmd, -⟩
          rw [hgd] at hcmd
          exact hnc hcmd
        · have hcmd : b.getD 58 0 = 0x01 ∨ b.getD 58 0 = 0x03 := by
            rw [hgd]
            exact (commandFromByte_isSome_iff _).mp (by rw [hcb]; rfl)
          rcases haddr : addrFromAssembleBytes (b.drop 59) with e | a
          · have hnone : reqFromBytes b = none := by
              simp [reqFromBytes, hsl, hpw, hcrlf, h2, hcb, haddr]
            refine ⟨?_, fun r hr => by rw [hnone] at hr; cases hr⟩
            rw [hnone]
            simp only [Option.isSome_none, Bool.false_eq_true, false_iff]
            rintro ⟨-, -, -, -, a, ha, -⟩
            rw [haddr] at ha
            cases ha
          · have hoff : 59 + addrSize a + 2 - 2 = 59 + addrSize a := by omega
            rcases hfin : listSlice b (59 + addrSize a) (59 + addrSize a + 2) with _ | s
            · have hnone : reqFromBytes b = none := by
                simp [reqFromBytes, hsl, hpw, hcrlf, h2, hcb, haddr, hoff, hfin]
              refine ⟨?_, fun r hr => by rw [hnone] at hr; cases hr⟩
              rw [hnone]
              simp only [Option.isSome_none, Bool.false_eq_true, false_iff]
              rintro ⟨-, -, -, -, a2, ha2, hcr2⟩
              rw [haddr] at ha2
              cases ha2
              rw [hfin] at hcr2
              cases hcr2
            · by_cases hcr : s = crlf
              · have hsome : reqFromBytes b =
                    some ⟨pwd, cmd, a, b.drop (59 + addrSize a + 2)⟩ := by
                  simp [reqFromBytes, hsl, hpw, hcrlf, h2, hcb, haddr, hoff,
                    hfin, hcr]
                refine ⟨?_, ?_⟩
                · rw [hsome]
                  simp only [Option.isSome_some, true_iff]
                  exact ⟨hb, hhex, h2, hcmd, a, haddr, by rw [hfin, hcr]⟩
                · intro r hr
                  rw [hsome] at hr
                  cases hr
                  rfl
              · have hnone : reqFromBytes b = none := by
                  simp [reqFromBytes, hsl, hpw, hcrlf, h2, hcb, haddr, hoff,
                    hfin, hcr]
                refine ⟨?_, fun r hr => by rw [hnone] at hr; cases hr⟩
                rw [hnone]
                simp only [Option.isSome_none, Bool.false_eq_true, false_iff]
                rintro ⟨-, -, -, -, a2, ha2, hcr2⟩
                rw [haddr] at ha2
                cases ha2
                rw [hfin] at hcr2
                exact hcr (by cases hcr2; rfl)
      · have hnone : reqFromBytes b = none := by
          simp [reqFromBytes, hsl, hpw, hcrlf, h2]
        refine ⟨?_, fun r hr => by rw [hnone] at hr; cases hr⟩
        rw [hnone]
        simp only [Option.isSome_none, Bool.false_eq_true, false_iff]
        rintro ⟨-, -, hcl, -⟩
        exact h2 hcl
  · have hsl : listSlice b 0 59 = none := by
      simp only [listSlice]
      rw [if_neg]
      omega
    have hnone : reqFromBytes b = none := by
      simp [reqFromBytes, hsl]
    refine ⟨?_, fun r hr => by rw [hnone] at hr; cases hr⟩
    rw [hnone]
    simp only [Option.isSome_none, Bool.false_eq_true, false_iff]
    rintro ⟨hlen, -⟩
    exact hb hlen

/-- C7 witness: the characterization applied at `wReqBytes`, whose parse
succeeds with payload `[5, 6]`. -/
theorem reqFromBytes_isSome_iff_witness :
    reqFromBytes wReqBytes =
      some ⟨List.replicate 28 170, .connect, .v4 127 0 0 1 80, [5, 6]⟩ ∧
    (⟨List.replicate 28 170, .connect, .v4 127 0 0 1 80, [5, 6]⟩ : Req).payload =
      wReqBytes.drop (59 + addrSize (Addr.v4 127 0 0 1 80) + 2) :=
  ⟨by decide, (reqFromBytes_isSome_iff wReqBytes).2 _ (by decide)⟩

theorem listSlice_spec {l : List Nat} {a b : Nat} {s : List Nat}
    (h : listSlice l a b = some s) :
    a ≤ b ∧ b ≤ l.length ∧ s.length = b - a ∧ s = (l.drop a).take (b - a) := by
  unfold listSlice at h
  split at h
  · rename_i hc
    cases h
    refine ⟨hc.1, hc.2, ?_, rfl⟩
    rw [List.length_take, List.length_drop]
    omega
  · cases h

/-- A successfully parsed UDP packet occupies a prefix of its input:
its `size` is at most the input length. -/
theorem udpFromBytes_size_le (b : List Nat) (p : UdpPacketInner)
    (h : udpFromBytes b = .ok p) : p.size ≤ b.length := by
  unfold udpFromBytes at h
  rcases ha : addrFromAssembleBytes b with e | addr <;> rw [ha] at h
  · cases h
  · dsimp only at h
    rcases hls : listSlice b (addrSize addr) (addrSize addr + 2) with _ | ls <;>
      rw [hls] at h
    · cases h
    · dsimp only at h
      rcases hs2 : listSlice b (addrSize addr + 2)
          (addrSize addr + 2 + 2 + be16 (ls.getD 0 0) (ls.getD 1 0)) with _ | s <;>
        rw [hs2] at h
      · cases h
      · obtain ⟨-, hb2, hlen2, -⟩ := listSlice_spec hs2
        dsimp only at h
        by_cases hcr : s.take 2 = crlf
        · rw [if_pos hcr] at h
          injection h with h2
          subst h2
          simp only [UdpPacketInner.size, List.length_drop]
          omega
        · rw [if_neg hcr] at h
          cases h

theorem processNewPacket_buf (s : UdpPacketBuf) :
    s.processNewPacket.1.buf =
      match s.packet with
      | some p => (s.buf.drop p.size).take (s.buf.length - p.size)
      | none => s.buf := by
  obtain ⟨buf, pkt⟩ := s
  cases pkt with
  | none =>
    dsimp only [UdpPacketBuf.processNewPacket]
    rcases h : udpFromBytes buf with e | p
    · cases e <;> simp [h]
    · simp [h]
  | some p =>
    dsimp only [UdpPacketBuf.processNewPacket]
    rcases h : udpFromBytes ((buf.drop p.size).take (buf.length - p.size)) with e | q
    · cases e <;> simp [h]
    · simp [h]

theorem processNewPacket_packet_ok (s : UdpPacketBuf) (p : UdpPacketInner)
    (h : s.processNewPacket.1.packet = some p) :
    udpFromBytes s.processNewPacket.1.buf = .ok p := by
  obtain ⟨buf, pkt⟩ := s
  cases pkt with
  | none =>
    dsimp only [UdpPacketBuf.processNewPacket] at h ⊢
    rcases hu : udpFromBytes buf with e | q
    · rw [hu] at h
      cases e <;> dsimp only at h <;> cases h
    · rw [hu] at h
      dsimp only at h ⊢
      cases h
      exact hu
  | some p0 =>
    dsimp only [UdpPacketBuf.processNewPacket] at h ⊢
    rcases hu : udpFromBytes ((buf.drop p0.size).take (buf.length - p0.size))
        with e | q
    · rw [hu] at h
      cases e <;> dsimp only at h <;> cases h
    · rw [hu] at h
      dsimp only at h ⊢
      cases h
      exact hu

theorem udpBuf_inv (s : UdpPacketBuf) (h : UdpBufReachable s) :
    ∀ p, s.packet = some p → p.size ≤ s.buf.length := by
  induction h with
  | init bytes =>
    intro p hp
    simp [UdpPacketBuf.init] at hp
  | write s bytes hs ih =>
    intro p hp
    have hp0 : s.packet = some p := hp
    have hle := ih p hp0
    have : (s.write bytes).buf = s.buf ++ bytes := rfl
    rw [this, List.length_append]
    omega
  | process s hs ih =>
    intro p hp
    exact udpFromBytes_size_le _ p (processNewPacket_packet_ok s p hp)

/-- C10: in every reassembler state reachable from `init` by `write`
and `process_new_packet`, a held parsed packet describes a prefix of
the owned buffer (`size ≤ buf.length`), so the compaction step never
underflows and removes exactly the held packet's bytes from the front
of the buffer. -/
theorem udpPacketBuf_heldPacket_bound (s : UdpPacketBuf) (h : UdpBufReachable s) :
    (∀ p, s.packet = some p → p.size ≤ s.buf.length) ∧
    (∀ p, s.packet = some p → s.processNewPacket.1.buf = s.buf.drop p.size) := by
  refine ⟨udpBuf_inv s h, ?_⟩
  intro p hp
  have hsz := udpBuf_inv s h p hp
  rw [processNewPacket_buf, hp]
  apply List.take_of_length_le
  rw [List.length_drop]

/-- C10 witness: the prefix invariant applied to the state reached by
`init wPktBytes` followed by one `process_new_packet`, which holds the
parsed packet of size 13. -/
theorem udpPacketBuf_heldPacket_bound_witness :
    UdpPacketInner.size ⟨Addr.v4 127 0 0 1 53, [8, 9]⟩ ≤
      (UdpPacketBuf.init wPktBytes).processNewPacket.1.buf.length :=
  (udpPacketBuf_heldPacket_bound _
      (UdpBufReachable.process _ (UdpBufReachable.init wPktBytes))).1
    _ (by decide)

/-- C5 (counter-evidence): the token volume can exceed
`rate · INTERVAL`.  In `c5State` the bucket holds 20 tokens while the
current finite rate 10 caps the volume at `10 · 0.2 = 2`: lowering the
speed limit does not trim the stored volume. -/
theorem limiter_volume_cap_fails :
    LimiterReachable c5State ∧
    c5State.isUnlimited = false ∧
    c5State.speedLimit * INTERVAL < c5State.volumn := by
  refine ⟨LimiterReachable.set _ _
      (LimiterReachable.consume _ 1 0 (by norm_num) (LimiterReachable.new _)),
    rfl, ?_⟩
  norm_num [c5State, Limiter.new, Limiter.consume, Limiter.refill,
    Limiter.bucketConsume, Limiter.setSpeedLimit, INTERVAL, min_def]

/-- C5 (amended): the bound `volumn ≤ rate · INTERVAL` holds right
after construction with a nonnegative finite rate, and after every
`consume` call that takes the limited path; only `set_speed_limit` to a
lower rate can transiently break it, until the next `consume`
refills. -/
theorem limiter_volume_cap_after_consume :
    (∀ r : ℚ, 0 ≤ r →
      (Limiter.new (some r)).volumn ≤ (Limiter.new (some r)).speedLimit * INTERVAL) ∧
    (∀ (l : Limiter) (elapsed : ℚ) (bytes : Nat), l.isUnlimited = false →
      (l.consume elapsed bytes).1.volumn ≤
        (l.consume elapsed bytes).1.speedLimit * INTERVAL) := by
  constructor
  · intro r hr
    simp only [Limiter.new]
    have : (0:ℚ) ≤ r * INTERVAL := by
      have : (0:ℚ) ≤ INTERVAL := by norm_num [INTERVAL]
      positivity
    exact this
  · intro l elapsed bytes h
    unfold Limiter.consume
    rw [h]
    simp only [Bool.false_eq_true, if_false]
    unfold Limiter.bucketConsume Limiter.refill
    dsimp only
    have h1 : min (l.speedLimit * INTERVAL) (l.volumn + l.speedLimit * elapsed) ≤
        l.speedLimit * INTERVAL := min_le_left _ _
    have h2 : (0:ℚ) ≤ (bytes : ℚ) := Nat.cast_nonneg _
    linarith

/-- C5 witness: the amended bound applied at rate 3, a consume of 4
bytes after 2 s from the state `⟨5, 3, false⟩`. -/
theorem limiter_volume_cap_after_consume_witness :
    ((0:ℚ) ≤ 3 ∧
      (Limiter.new (some 3)).volumn ≤ (Limiter.new (some 3)).speedLimit * INTERVAL) ∧
    ((Limiter.mk 5 3 false).isUnlimited = false ∧
      ((Limiter.mk 5 3 false).consume 2 4).1.volumn ≤
        ((Limiter.mk 5 3 false).consume 2 4).1.speedLimit * INTERVAL) :=
  ⟨⟨by norm_num, limiter_volume_cap_after_consume.1 3 (by norm_num)⟩,
    ⟨rfl, limiter_volume_cap_after_consume.2 _ 2 4 rfl⟩⟩

/-- C2 (counter-evidence): reconciling `running = {1 ↦ uA}` against
`fetched = {1 ↦ uB, 2 ↦ uC}` leaves the store keyed by
`[pA, pB, pC]` — the stale entry under the old fingerprint `pA`
survives with user 1's counters, while a fresh zero-counter context is
created under `pB`; nothing is moved. -/
theorem fetchUsersReconcile_leaves_stale_entry :
    (fetchUsersReconcile [(1, uA)] [(1, uB), (2, uC)] [(pA, ctxA)]).map Prod.fst =
      [pA, pB, pC] ∧
    alGet (fetchUsersReconcile [(1, uA)] [(1, uB), (2, uC)] [(pA, ctxA)]) pA =
      some ctxA ∧
    alGet (fetchUsersReconcile [(1, uA)] [(1, uB), (2, uC)] [(pA, ctxA)]) pB =
      some ⟨1, 0, 0, ⟨0, 1048576, false⟩, ∅, none⟩ ∧
    ctxA.rx = 5 ∧ ctxA.tx = 7 := by
  refine ⟨?_, ?_, ?_, rfl, rfl⟩ <;>
    norm_num [fetchUsersReconcile, alGet, alInsert, alRemove, uA, uB, uC, pA, pB,
      pC, ctxA, UserRaw.asServerUser, UserRaw.speedLimit, UserRaw.ipLimit,
      Limiter.new]

theorem alGet_alInsert_self {κ ν : Type} [DecidableEq κ]
    (m : List (κ × ν)) (k : κ) (v : ν) : alGet (alInsert m k v) k = some v := by
  induction m with
  | nil => simp [alGet, alInsert]
  | cons e rest ih =>
    obtain ⟨k2, v2⟩ := e
    by_cases h : k2 = k
    · subst h
      simp [alGet, alInsert]
    · simp [alGet, alInsert, h, ih]

theorem alGet_alInsert_ne {κ ν : Type} [DecidableEq κ]
    (m : List (κ × ν)) (k k2 : κ) (v : ν) (h : k2 ≠ k) :
    alGet (alInsert m k2 v) k = alGet m k := by
  induction m with
  | nil => simp [alGet, alInsert, h]
  | cons e rest ih =>
    obtain ⟨k3, v3⟩ := e
    have h5 : k ≠ k2 := fun hh => h hh.symm
    by_cases h3 : k3 = k2
    · subst h3
      simp [alGet, alInsert, h]
    · by_cases h4 : k3 = k
      · subst h4
        simp [alGet, alInsert, h3, h5]
      · simp [alGet, alInsert, h3, h4, ih]

/-- C4 (counter-evidence): with `ips = {1, 2}` and the cap lowered to
1, a repeat connection from IP 1 is rejected with `IpLimit` and the
user's set afterwards is `{2}` — the rejected admission removed the
already-present source IP, mutating `ips`. -/
theorem verify_ipLimit_mutates :
    (verify [([7], ⟨1, 0, 0, ⟨0, 0, true⟩, {1, 2}, some 1⟩)] 1 [7]).2 =
      .error .ipLimit ∧
    (alGet (verify [([7], ⟨1, 0, 0, ⟨0, 0, true⟩, {1, 2}, some 1⟩)] 1 [7]).1
        [7]).map UserContext.ips = some {2} ∧
    ({2} : Finset Nat) ≠ {1, 2} := by
  refine ⟨rfl, ?_, by decide⟩
  norm_num [verify, alGet, alInsert]

/-- C4 (amended): whenever a cap is set and the set after inserting the
source IP exceeds it, `verify` returns `IpLimit` and the stored set
afterwards is the prior set with the source IP removed; in particular
when the source IP was not already a member, the set is exactly the set
before the call. -/
theorem verify_ipLimit_erases_src (users : List (Pwd × UserContext))
    (src : Nat) (pwd : Pwd) (u : UserContext) (n : Nat)
    (hget : alGet users pwd = some u)
    (hcap : u.ipCap = some n)
    (hover : n < (insert src u.ips).card) :
    (verify users src pwd).2 = .error .ipLimit ∧
    alGet (verify users src pwd).1 pwd = some { u with ips := u.ips.erase src } ∧
    (src ∉ u.ips →
      alGet (verify users src pwd).1 pwd = some u) := by
  have herase : (insert src u.ips).erase src = u.ips.erase src :=
    Finset.erase_insert_eq_erase _ _
  have hmain : verify users src pwd =
      (alInsert users pwd { u with ips := u.ips.erase src }, .error .ipLimit) := by
    unfold verify
    rw [hget]
    dsimp only
    rw [hcap]
    dsimp only
    rw [if_pos hover, herase]
  refine ⟨by rw [hmain], by rw [hmain]; exact alGet_alInsert_self _ _ _, ?_⟩
  intro hsrc
  rw [hmain]
  rw [alGet_alInsert_self]
  rw [Finset.erase_eq_of_not_mem hsrc]

/-- C4 witness: the amended statement applied to a user with
`ips = {2, 3}`, cap 1, and fresh source IP 1: the rejection leaves
`{2, 3}` untouched. -/
theorem verify_ipLimit_erases_src_witness :
    ((verify [([7], ⟨1, 0, 0, ⟨0, 0, true⟩, {2, 3}, some 1⟩)] 1 [7]).2 =
        .error .ipLimit ∧
      alGet (verify [([7], ⟨1, 0, 0, ⟨0, 0, true⟩, {2, 3}, some 1⟩)] 1 [7]).1 [7] =
        some ⟨1, 0, 0, ⟨0, 0, true⟩, ({2, 3} : Finset Nat).erase 1, some 1⟩ ∧
      (1 ∉ ({2, 3} : Finset Nat) →
        alGet (verify [([7], ⟨1, 0, 0, ⟨0, 0, true⟩, {2, 3}, some 1⟩)] 1 [7]).1 [7] =
          some ⟨1, 0, 0, ⟨0, 0, true⟩, {2, 3}, some 1⟩)) :=
  verify_ipLimit_erases_src [([7], ⟨1, 0, 0, ⟨0, 0, true⟩, {2, 3}, some 1⟩)] 1 [7]
    ⟨1, 0, 0, ⟨0, 0, true⟩, {2, 3}, some 1⟩ 1 (by decide) rfl (by decide)

theorem assumeStep_get_ne (us : List (Pwd × UserContext)) (d : UpdateData)
    (k : Pwd) (h : d.pwd ≠ k) : alGet (assumeStep us d) k = alGet us k := by
  unfold assumeStep
  cases h2 : alGet us d.pwd with
  | none => rfl
  | some u => exact alGet_alInsert_ne _ _ _ _ h

theorem assumeUpdate_get_ne (us : List (Pwd × UserContext))
    (data : List UpdateData) (k : Pwd) (h : ∀ d ∈ data, d.pwd ≠ k) :
    alGet (assumeUpdate us data) k = alGet us k := by
  induction data generalizing us with
  | nil => rfl
  | cons d ds ih =>
    show alGet (assumeUpdate (assumeStep us d) ds) k = _
    rw [ih (assumeStep us d) (fun d2 hd2 => h d2 (List.mem_cons_of_mem _ hd2))]
    exact assumeStep_get_ne _ _ _ (h d (List.mem_cons_self _ _))

theorem assumeUpdate_get_mem (us : List (Pwd × UserContext))
    (data : List UpdateData) (d0 : UpdateData) (hmem : d0 ∈ data)
    (hnd : (data.map UpdateData.pwd).Nodup) :
    alGet (assumeUpdate us data) d0.pwd =
      (alGet us d0.pwd).map
        (fun u => { u with tx := sub64 u.tx d0.tx, rx := sub64 u.rx d0.rx }) := by
  induction data generalizing us with
  | nil => cases hmem
  | cons d ds ih =>
    show alGet (assumeUpdate (assumeStep us d) ds) d0.pwd = _
    simp only [List.map_cons, List.nodup_cons] at hnd
    rcases List.mem_cons.mp hmem with he | hm
    · subst he
      have hrest : ∀ d2 ∈ ds, d2.pwd ≠ d0.pwd := by
        intro d2 hd2 heq
        exact hnd.1 (List.mem_map.mpr ⟨d2, hd2, heq⟩)
      rw [assumeUpdate_get_ne _ _ _ hrest]
      unfold assumeStep
      cases hg : alGet us d0.pwd with
      | none => simp [hg]
      | some u => simp [alGet_alInsert_self]
    · have hne : d.pwd ≠ d0.pwd := by
        intro heq
        exact hnd.1 (List.mem_map.mpr ⟨d0, hm, heq.symm⟩)
      rw [ih (assumeStep us d) hm hnd.2]
      rw [assumeStep_get_ne _ _ _ hne]

theorem collectUpdate_pwds_sublist (users : List (Pwd × UserContext)) :
    ((collectUpdate users).map UpdateData.pwd).Sublist (users.map Prod.fst) := by
  induction users with
  | nil => simp [collectUpdate]
  | cons e rest ih =>
    by_cases hc : e.2.tx > 0 ∨ e.2.rx > 0
    · have hcc : collectUpdate (e :: rest) =
          ⟨e.2.id, e.2.rx, e.2.tx, e.1⟩ :: collectUpdate rest := by
        simp [collectUpdate, hc]
      rw [hcc]
      simp only [List.map_cons]
      exact ih.cons₂ _
    · have hcc : collectUpdate (e :: rest) = collectUpdate rest := by
        simp [collectUpdate, hc]
      rw [hcc]
      exact ih.cons _

theorem collectUpdate_mem (users : List (Pwd × UserContext)) (pwd : Pwd)
    (u0 : UserContext) (hget : alGet users pwd = some u0)
    (hrep : u0.tx > 0 ∨ u0.rx > 0) :
    (⟨u0.id, u0.rx, u0.tx, pwd⟩ : UpdateData) ∈ collectUpdate users := by
  induction users with
  | nil => cases hget
  | cons e rest ih =>
    obtain ⟨k, v⟩ := e
    by_cases hk : k = pwd
    · subst hk
      have hv : v = u0 := by
        have : alGet ((k, v) :: rest) k = some v := by simp [alGet]
        rw [this] at hget
        cases hget
        rfl
      subst hv
      have hcc : collectUpdate ((k, v) :: rest) =
          ⟨v.id, v.rx, v.tx, k⟩ :: collectUpdate rest := by
        simp [collectUpdate, hrep]
      rw [hcc]
      exact List.mem_cons_self _ _
    · have hget2 : alGet rest pwd = some u0 := by
        have : alGet ((k, v) :: rest) pwd = alGet rest pwd := by simp [alGet, hk]
        rw [this] at hget
        exact hget
      by_cases hc : v.tx > 0 ∨ v.rx > 0
      · have hcc : collectUpdate ((k, v) :: rest) =
            ⟨v.id, v.rx, v.tx, k⟩ :: collectUpdate rest := by
          simp [collectUpdate, hc]
        rw [hcc]
        exact List.mem_cons_of_mem _ (ih hget2)
      · have hcc : collectUpdate ((k, v) :: rest) = collectUpdate rest := by
          simp [collectUpdate, hc]
        rw [hcc]
        exact ih hget2

/-- C3: a successful flush that reported `(tx = x, rx = y)` for a user
whose fingerprint is still in the store subtracts exactly `x` and `y`
from that user's counters — never zeroing them — so increments `a`/`b`
performed between collection and subtraction are preserved. -/
theorem assumeUpdate_subtracts_exactly
    (S S1 : List (Pwd × UserContext)) (pwd : Pwd) (u0 u1 : UserContext)
    (a b : Nat)
    (hnd : (S.map Prod.fst).Nodup)
    (hS : alGet S pwd = some u0)
    (hrep : u0.tx > 0 ∨ u0.rx > 0)
    (hS1 : alGet S1 pwd = some u1)
    (htx : u1.tx = u0.tx + a) (hrx : u1.rx = u0.rx + b)
    (htx64 : u1.tx < U64LIM) (hrx64 : u1.rx < U64LIM) :
    alGet (assumeUpdate S1 (collectUpdate S)) pwd =
      some { u1 with tx := a, rx := b } := by
  have hmem := collectUpdate_mem S pwd u0 hS hrep
  have hnd2 := List.Nodup.sublist (collectUpdate_pwds_sublist S) hnd
  have hmain := assumeUpdate_get_mem S1 (collectUpdate S)
    ⟨u0.id, u0.rx, u0.tx, pwd⟩ hmem hnd2
  dsimp only at hmain
  rw [hmain, hS1]
  have hpow : U64LIM = 18446744073709551616 := by norm_num [U64LIM]
  rw [hpow] at htx64 hrx64
  have e1 : sub64 u1.tx u0.tx = a := by
    unfold sub64
    rw [hpow]
    omega
  have e2 : sub64 u1.rx u0.rx = b := by
    unfold sub64
    rw [hpow]
    omega
  simp only [Option.map_some']
  rw [e1, e2]

/-- C3 witness: a store with one user reported as `(tx = 7, rx = 5)`
that received 2 more tx bytes and 3 more rx bytes between collection
and subtraction ends with counters `(tx = 2, rx = 3)`. -/
theorem assumeUpdate_subtracts_exactly_witness :
    alGet [(pA, (⟨1, 5, 7, ⟨0, 0, true⟩, ∅, none⟩ : UserContext))] pA =
      some ⟨1, 5, 7, ⟨0, 0, true⟩, ∅, none⟩ ∧
    alGet
      (assumeUpdate [(pA, (⟨1, 8, 9, ⟨0, 0, true⟩, ∅, none⟩ : UserContext))]
        (collectUpdate [(pA, (⟨1, 5, 7, ⟨0, 0, true⟩, ∅, none⟩ : UserContext))]))
      pA = some ⟨1, 3, 2, ⟨0, 0, true⟩, ∅, none⟩ :=
  ⟨by decide,
    assumeUpdate_subtracts_exactly _ _ pA
      ⟨1, 5, 7, ⟨0, 0, true⟩, ∅, none⟩ ⟨1, 8, 9, ⟨0, 0, true⟩, ∅, none⟩ 2 3
      (by decide) (by decide) (by decide) (by decide) rfl rfl (by decide) (by decide)⟩

/-- C8 (counter-evidence): a reassembled packet whose payload is
exactly 8192 bytes — at most 8 KiB, so the claim says it is sent and
counted — is silently dropped by the channel-based relay loop of
src/session/mod.rs. -/
theorem sessionUdpDrain_drops_8192 :
    sessionUdpDrain [List.replicate 8192 0] = ([], 0) ∧
    (List.replicate 8192 0).length ≤ PAYLOAD_LEN ∧
    serverUdpDrain [List.replicate 8192 0] = ([List.replicate 8192 0], 8192) := by
  have hlen : (List.replicate 8192 (0:Nat)).length = 8192 := by
    rw [List.length_replicate]
  have hstep : ∀ (p : List Nat) (rest : List (List Nat)),
      ¬(p.length < PAYLOAD_LEN) → sessionUdpDrain (p :: rest) = sessionUdpDrain rest := by
    intro p rest h
    simp only [sessionUdpDrain, if_neg h]
  have hstep2 : ∀ (p : List Nat) (rest : List (List Nat)), p.length ≤ PAYLOAD_LEN →
      serverUdpDrain (p :: rest) =
        (p :: (serverUdpDrain rest).1, p.length + (serverUdpDrain rest).2) := by
    intro p rest h
    simp only [serverUdpDrain, if_pos h]
  have hnot : ¬((List.replicate 8192 (0:Nat)).length < PAYLOAD_LEN) := by
    rw [hlen]
    norm_num [PAYLOAD_LEN]
  have hyes : (List.replicate 8192 (0:Nat)).length ≤ PAYLOAD_LEN := by
    rw [hlen]
    norm_num [PAYLOAD_LEN]
  refine ⟨?_, hyes, ?_⟩
  · rw [hstep _ _ hnot]
    rfl
  · rw [hstep2 _ _ hyes,
      show serverUdpDrain ([] : List (List Nat)) = ([], 0) from rfl, hlen]
    rfl

/-- C8 (amended): in the state-machine relay loop of
src/server/session.rs the packets sent are exactly those with payload
at most 8192 bytes and the recorded tx is the sum of their lengths,
while in the channel-based loop of src/session/mod.rs the cutoff is
strict — only payloads shorter than 8192 bytes are sent and counted,
and a payload of exactly 8 KiB is dropped. -/
theorem udpDrain_filter_characterization (ps : List (List Nat)) :
    (serverUdpDrain ps).1 = ps.filter (fun p => p.length ≤ PAYLOAD_LEN) ∧
    (serverUdpDrain ps).2 =
      ((ps.filter (fun p => p.length ≤ PAYLOAD_LEN)).map List.length).sum ∧
    (sessionUdpDrain ps).1 = ps.filter (fun p => p.length < PAYLOAD_LEN) ∧
    (sessionUdpDrain ps).2 =
      ((ps.filter (fun p => p.length < PAYLOAD_LEN)).map List.length).sum := by
  induction ps with
  | nil => exact ⟨rfl, rfl, rfl, rfl⟩
  | cons p rest ih =>
    obtain ⟨ih1, ih2, ih3, ih4⟩ := ih
    refine ⟨?_, ?_, ?_, ?_⟩
    · by_cases h : p.length ≤ PAYLOAD_LEN <;>
        simp [serverUdpDrain, List.filter_cons, h, ih1]
    · by_cases h : p.length ≤ PAYLOAD_LEN <;>
        simp [serverUdpDrain, List.filter_cons, h, ih2]
    · by_cases h : p.length < PAYLOAD_LEN <;>
        simp [sessionUdpDrain, List.filter_cons, h, ih3]
    · by_cases h : p.length < PAYLOAD_LEN <;>
        simp [sessionUdpDrain, List.filter_cons, h, ih4]

end TrojanX
